import Mathlib

set_option maxHeartbeats 1000000
set_option maxRecDepth 8000

/-!
Verification development for the inline fixture-file library (`src/index.ts`).

The embedding represents filesystem paths as lists of segments, the filesystem
as an association list from absolute path to entry, and every operation of the
fixture handle (`createIFF`, `writeFixtures`, `addFixtures`, `fork`, `reset`,
`rmRootDir`, `rmFixtures`) as a state-passing function that also records the
sequence of filesystem events it performs.  The tree flattener (`getPaths`),
the path rebaser (`changeRootDirOfPaths`) and the recursive materializer
(`createIFFImpl`) are not part of the sources and are modelled from the spec,
as noted on their definitions.  Sibling writes, which the library issues
concurrently, are serialized in declaration order; the only ordering facts
used by the theorems are the cross-phase orderings that the code enforces
with sequential awaits.
-/

/-- A filesystem entry: either a directory marker or a file with textual content. -/
inductive Entry where
  | dir : Entry
  | file (content : String) : Entry
deriving DecidableEq

/-- Absolute and relative filesystem paths, as lists of segments. -/
abbrev FPath := List String

/-- The filesystem: an association list from absolute path to entry. -/
abbrev Fs := List (FPath × Entry)

/-- Look up the entry at a path (first match in the association list). -/
def getEntry (fs : Fs) (p : FPath) : Option Entry :=
  match fs with
  | [] => none
  | q :: rest => if q.1 = p then some q.2 else getEntry rest p

/-- Set the entry at a path, updating the first match in place or appending. -/
def setEntry (p : FPath) (e : Entry) : Fs → Fs
  | [] => [(p, e)]
  | q :: rest => if q.1 = p then (p, e) :: rest else q :: setEntry p e rest

/-- A filesystem event performed by one of the handle operations. -/
inductive Ev where
  | mkdir (p : FPath)
  | write (p : FPath) (content : String)
  | copy (src dst : FPath)
  | remove (p : FPath)
  | readdir (p : FPath)
deriving DecidableEq

/-- Apply one event to the filesystem.  `mkdir` creates a directory if the
path is absent (`recursive: true` tolerates an existing directory), `write`
overwrites unconditionally, `copy` clones every entry under `src` to the
corresponding path under `dst` (overwriting), `remove` deletes the path and
everything below it (`force: true`), and `readdir` has no effect on state. -/
def applyEv (fs : Fs) : Ev → Fs
  | .mkdir p => if (getEntry fs p).isSome then fs else setEntry p .dir fs
  | .write p c => setEntry p (.file c) fs
  | .copy src dst =>
      (fs.filter (fun q => src.isPrefixOf q.1)).foldl
        (fun acc q => setEntry (dst ++ q.1.drop src.length) q.2 acc) fs
  | .remove p => fs.filter (fun q => !(p.isPrefixOf q.1))
  | .readdir _ => fs

/-- Apply a sequence of events from left to right. -/
def applyEvents (fs : Fs) (es : List Ev) : Fs :=
  es.foldl applyEv fs

/-- The world state threaded through the operations: the filesystem, the
number of invocations of the injected `generateRootDir` function so far, and
the log of all filesystem events performed. -/
structure FsState where
  fs : Fs
  gen : Nat
  trace : List Ev
deriving DecidableEq

/-- Perform a list of events: update the filesystem and append to the log. -/
def runEvents (st : FsState) (es : List Ev) : FsState :=
  { st with fs := applyEvents st.fs es, trace := st.trace ++ es }

mutual
/-- A node of a directory specification: a file leaf with textual content or
a nested directory node (`DirectoryItem` in `src/index.ts`). -/
inductive DirectoryItem where
  | file (content : String) : DirectoryItem
  | dir (d : Directory) : DirectoryItem

/-- An ordered mapping from key strings (possibly containing separators) to
child nodes (`Directory` in `src/index.ts`). -/
inductive Directory where
  | nil : Directory
  | cons (key : String) (item : DirectoryItem) (rest : Directory) : Directory
end

deriving instance DecidableEq for DirectoryItem
deriving instance DecidableEq for Directory

/-- Split a list of characters at separator characters. -/
def splitAux : List Char → List Char → List (List Char)
  | [], cur => [cur.reverse]
  | c :: rest, cur =>
      if c = '/' then cur.reverse :: splitAux rest [] else splitAux rest (c :: cur)

/-- Modelled from the spec: keys may contain path separators; a multi-segment
key is equivalent to nesting single-segment keys.  This splits a key string
into its segments. -/
def splitKey (k : String) : List String :=
  (splitAux k.data []).map (fun cs => String.mk cs)

/-- The paths `acc ++ t` for every nonempty prefix `t` of `s`, shortest
first: the chain of directories a multi-segment key passes through. -/
def ascPrefixes (acc : FPath) : List String → List FPath
  | [] => []
  | seg :: s => (acc ++ [seg]) :: ascPrefixes (acc ++ [seg]) s

/-- The proper extensions of `rel` lying on the way to `rel ++ s`. -/
def keyPrefixes (rel : FPath) (s : List String) : List FPath :=
  ascPrefixes rel s

/-- The events of `mkdir(p, { recursive: true })`: create every nonempty
prefix of `p`, shortest first. -/
def mkdirpEvents (p : FPath) : List Ev :=
  (ascPrefixes [] p).map .mkdir

mutual
/-- Modelled from the spec: the events the recursive materializer performs
for the children of one directory node rooted at `abs`: for a file leaf it
creates the leaf's parent directories and writes the content, for a
directory node it recurses; siblings are serialized in declaration order. -/
def entriesEvents : Directory → FPath → List Ev
  | .nil, _ => []
  | .cons k it rest, abs =>
      itemEvents it (abs ++ splitKey k) ++ entriesEvents rest abs

/-- Modelled from the spec: the events for one child node placed at absolute
path `abs`. -/
def itemEvents : DirectoryItem → FPath → List Ev
  | .file c, abs => mkdirpEvents abs.dropLast ++ [.write abs c]
  | .dir d, abs => mkdirpEvents abs ++ entriesEvents d abs
end

/-- Modelled from the spec: `createIFFImpl(directory, dir)` (the recursive
materializer, `src/create-iff-impl.ts`, absent from the sources): ensure the
root exists, then materialize all children. -/
def createIFFImplEvents (d : Directory) (abs : FPath) : List Ev :=
  mkdirpEvents abs ++ entriesEvents d abs

/-- The events of replaying a whole lineage (oldest generation first) onto
one root directory, as `writeFixtures` does (`src/index.ts` lines 283-286). -/
def writeFixturesEvents (lineage : List Directory) (root : FPath) : List Ev :=
  (lineage.map (fun d => createIFFImplEvents d root)).flatten

/-- The keys of a path table; relative paths as segment lists. -/
abbrev PathTable := List (FPath × FPath)

/-- Insert a key into an association list with JavaScript object semantics:
update the existing key in place, otherwise append at the end. -/
def objInsert {K V : Type} [DecidableEq K] (k : K) (v : V) :
    List (K × V) → List (K × V)
  | [] => [(k, v)]
  | q :: rest => if q.1 = k then (k, v) :: rest else q :: objInsert k v rest

/-- Build a JavaScript object from a list of key-value assignments, earlier
entries first, later assignments overriding in place. -/
def objOfList {K V : Type} [DecidableEq K] (l : List (K × V)) : List (K × V) :=
  l.foldl (fun m q => objInsert q.1 q.2 m) []

/-- Look up a key in an association list (first match). -/
def pLookup {K V : Type} [DecidableEq K] (k : K) : List (K × V) → Option V
  | [] => none
  | q :: rest => if q.1 = k then some q.2 else pLookup k rest

mutual
/-- Modelled from the spec: the relative paths emitted by the tree
flattener, in declaration order, parents before descendants, including every
intermediate directory implied by a multi-segment key. -/
def rawPathsD : Directory → FPath → List FPath
  | .nil, _ => []
  | .cons k it rest, rel =>
      keyPrefixes rel (splitKey k) ++ rawPathsItem it (rel ++ splitKey k) ++
        rawPathsD rest rel

/-- Modelled from the spec: the relative paths contributed below one node. -/
def rawPathsItem : DirectoryItem → FPath → List FPath
  | .file _, _ => []
  | .dir d, rel => rawPathsD d rel
end

/-- Modelled from the spec: `getPaths(directory, rootDir)` (the tree
flattener, `src/get-paths.ts`, absent from the sources): the flat ordered
table from relative path to absolute path. -/
def getPaths (d : Directory) (rootDir : FPath) : PathTable :=
  objOfList ((rawPathsD d []).map (fun rel => (rel, rootDir ++ rel)))

/-- Modelled from the spec: `changeRootDirOfPaths(paths, newRootDir)` (the
path rebaser, `src/get-paths.ts`, absent from the sources): keys unchanged,
every value's root-directory prefix replaced by the new root. -/
def changeRootDirOfPaths (paths : PathTable) (newRootDir : FPath) : PathTable :=
  paths.map (fun q => (q.1, newRootDir ++ q.1))

/-- JavaScript spread of two objects: `{ ...a, ...b }`. -/
def spreadMerge {K V : Type} [DecidableEq K] (a b : List (K × V)) :
    List (K × V) :=
  objOfList (a ++ b)

/-- The fixture handle (`CreateIFFResult`): resolved root directory, the
lineage of directory specifications (oldest first, own specification last),
and the exposed flat path table. -/
structure Handle where
  root : FPath
  lineage : List Directory
  paths : PathTable
deriving DecidableEq

/-- Errors surfaced by the operations. -/
inductive Err where
  | sameRootDir
  | srcNotFound
  | copyIntoSubdir
  | rootNotFound
  | notADirectory
deriving DecidableEq

/-- The handle's `writeFixtures` (`src/index.ts` lines 283-286): replay the
previous generations and then this generation onto the override root if one
is passed, otherwise onto the handle's root. -/
def Handle.writeFixturesOp (h : Handle) (overrideRoot : Option FPath)
    (st : FsState) : FsState :=
  runEvents st (writeFixturesEvents h.lineage (overrideRoot.getD h.root))

/-- The body of `createIFF` once the root directory has been resolved
(`src/index.ts` lines 260-309): build the merged path table (previous
generation's table rebased to the new root, then this generation's own
paths, the latter overriding on key collision), extend the lineage, and
write the whole lineage to disk. -/
def createIFFAt (directory : Directory) (rootDir : FPath)
    (prevIFF : Option Handle) (st1 : FsState) : Handle × FsState :=
  let prevPaths := (prevIFF.map Handle.paths).getD []
  let paths :=
    spreadMerge (changeRootDirOfPaths prevPaths rootDir) (getPaths directory rootDir)
  let lineage := (prevIFF.map Handle.lineage).getD [] ++ [directory]
  (⟨rootDir, lineage, paths⟩, runEvents st1 (writeFixturesEvents lineage rootDir))

/-- The model of `createIFF` (`src/index.ts` lines 253-310): the root is the
override when one is passed, otherwise the injected generator is invoked
(exactly then) to produce it. -/
def createIFF (gen : Nat → FPath) (directory : Directory)
    (overrideRootDir : Option FPath) (prevIFF : Option Handle)
    (st : FsState) : Handle × FsState :=
  match overrideRootDir with
  | some r => createIFFAt directory r prevIFF st
  | none => createIFFAt directory (gen st.gen) prevIFF { st with gen := st.gen + 1 }

/-- The handle's `addFixtures` (`src/index.ts` lines 287-289): a recursive
`createIFF` call with the same root directory and this handle as the
previous generation. -/
def Handle.addFixtures (gen : Nat → FPath) (h : Handle)
    (additionalDirectory : Directory) (st : FsState) : Handle × FsState :=
  createIFF gen additionalDirectory (some h.root) (some h) st

/-- The model of `fs.cp(src, dst, { recursive: true, ... })`: fails when the
source is absent or when the destination sits inside the source, otherwise
clones the whole tree. -/
def cpOp (src dst : FPath) (st : FsState) : Except Err Unit × FsState :=
  if (getEntry st.fs src).isNone then (.error .srcNotFound, st)
  else if src.isPrefixOf dst then (.error .copyIntoSubdir, st)
  else (.ok (), runEvents st [.copy src dst])

/-- The body of `fork` once the new root directory has been resolved
(`src/index.ts` lines 292-299), exactly as written: reject a new root equal
to the current root, then run the recursive `createIFF` (which writes the
whole lineage including the additional fixtures at the new root), and only
afterwards copy the old root directory tree onto the new root. -/
def forkCore (h : Handle) (additionalDirectory : Directory)
    (newRootDir : FPath) (st1 : FsState) : Except Err Handle × FsState :=
  if newRootDir = h.root then (.error .sameRootDir, st1)
  else
    let built := createIFFAt additionalDirectory newRootDir (some h) st1
    match cpOp h.root newRootDir built.2 with
    | (.ok _, st3) => (.ok built.1, st3)
    | (.error e, st3) => (.error e, st3)

/-- The handle's `fork` (`src/index.ts` lines 290-300): the new root is the
override when one is passed, otherwise the injected generator is invoked at
fork time (exactly then, before the collision check) to produce it. -/
def Handle.fork (gen : Nat → FPath) (h : Handle)
    (additionalDirectory : Directory) (overrideRootDir : Option FPath)
    (st : FsState) : Except Err Handle × FsState :=
  match overrideRootDir with
  | some r => forkCore h additionalDirectory r st
  | none => forkCore h additionalDirectory (gen st.gen) { st with gen := st.gen + 1 }

/-- The handle's `rmRootDir` (`src/index.ts` lines 275-277):
`rm(rootDir, { recursive: true, force: true })`; never fails. -/
def Handle.rmRootDir (h : Handle) (st : FsState) : Except Err Unit × FsState :=
  (.ok (), runEvents st [.remove h.root])

/-- The handle's `rmFixtures` (`src/index.ts` lines 278-281): list the root
directory's entries (failing when the root is absent or is a file), then
recursively remove every direct child. -/
def Handle.rmFixtures (h : Handle) (st : FsState) : Except Err Unit × FsState :=
  match getEntry st.fs h.root with
  | none => (.error .rootNotFound, st)
  | some (.file _) => (.error .notADirectory, st)
  | some .dir =>
      let children := st.fs.filterMap (fun q =>
        if h.root.isPrefixOf q.1 ∧ q.1.length = h.root.length + 1 then some q.1
        else none)
      (.ok (), runEvents st (.readdir h.root :: children.map .remove))

/-- The handle's `reset` (`src/index.ts` lines 301-304): `rmRootDir()`
followed by `writeFixtures()`. -/
def Handle.reset (h : Handle) (st : FsState) : FsState :=
  h.writeFixturesOp none (h.rmRootDir st).2

/-! Projection of mkdir and write events onto a single path. -/

/-- The effect of a mkdir or write event, projected to one path. -/
inductive Wr where
  | mk
  | wr (c : String)
deriving DecidableEq

/-- How one projected event transforms the entry at a path: creating a
directory only when the path is absent, writing a file unconditionally. -/
def red : Option Entry → Wr → Option Entry
  | v, .mk => if v.isSome then v else some .dir
  | _, .wr c => some (.file c)

/-- Project an event onto a path: the mkdir or write it performs there. -/
def evProj (p : FPath) : Ev → Option Wr
  | .mkdir q => if q = p then some .mk else none
  | .write q c => if q = p then some (.wr c) else none
  | _ => none

/-- All mkdir and write actions a sequence of events performs at a path. -/
def projAt (p : FPath) (es : List Ev) : List Wr :=
  es.filterMap (evProj p)

/-- Whether an event is a mkdir or a write. -/
def Ev.isMW : Ev → Bool
  | .mkdir _ => true
  | .write _ _ => true
  | _ => false

/-- The path an event acts on directly (mkdir and write events). -/
def evPath : Ev → Option FPath
  | .mkdir p => some p
  | .write p _ => some p
  | _ => none

/-! Concrete scenarios exercising the fork and addFixtures code paths. -/

/-- Whether an `Except` value is a success. -/
def exIsOk {ε α : Type} : Except ε α → Bool
  | .ok _ => true
  | .error _ => false

/-- Scenario: base fixture `{a.txt: "1"}` at root `r1`. -/
def c1Base : Handle × FsState :=
  createIFF (fun _ => ["gen"]) (.cons "a.txt" (.file "1") .nil)
    (some ["r1"]) none ⟨[], 0, []⟩

/-- Scenario: fork of the base with the colliding fixture `{a.txt: "2"}`
onto the fresh root `r2`. -/
def c1Fork : Except Err Handle × FsState :=
  Handle.fork (fun _ => ["gen"]) c1Base.1 (.cons "a.txt" (.file "2") .nil)
    (some ["r2"]) c1Base.2

/-- Scenario: base fixture `{a.txt: "one"}` at root `p`. -/
def c6Base : Handle × FsState :=
  createIFF (fun _ => ["gen"]) (.cons "a.txt" (.file "one") .nil)
    (some ["p"]) none ⟨[], 0, []⟩

/-- Scenario: fork of the base with the colliding fixture `{a.txt: "two"}`
onto the fresh root `q`. -/
def c6Fork : Except Err Handle × FsState :=
  Handle.fork (fun _ => ["gen"]) c6Base.1 (.cons "a.txt" (.file "two") .nil)
    (some ["q"]) c6Base.2

/-- The handle returned by the fork in the scenario. -/
def c6Handle : Handle :=
  match c6Fork.1 with
  | .ok h => h
  | .error _ => ⟨[], [], []⟩

/-- The state after `reset()` on the forked handle. -/
def c6Reset : FsState := Handle.reset c6Handle c6Fork.2

/-- Scenario: base fixture `{x.txt: "old"}` at root `tmp/a`. -/
def c4Base : Handle × FsState :=
  createIFF (fun _ => ["gen"]) (.cons "x.txt" (.file "old") .nil)
    (some ["tmp", "a"]) none ⟨[], 0, []⟩

/-- Scenario: fork of the base onto the root `tmp`, which is an ancestor of
the base root, with the additional fixture `{a/x.txt: "new"}`. -/
def c4Fork : Except Err Handle × FsState :=
  Handle.fork (fun _ => ["gen"]) c4Base.1 (.cons "a/x.txt" (.file "new") .nil)
    (some ["tmp"]) c4Base.2

/-- Scenario: base fixture `{a.txt: "a"}` at root `r`. -/
def c2Base : Handle × FsState :=
  createIFF (fun _ => ["gen"]) (.cons "a.txt" (.file "a") .nil)
    (some ["r"]) none ⟨[], 0, []⟩

/-- Scenario: `addFixtures({b.txt: "b"})` on the base handle. -/
def c2Add : Handle × FsState :=
  Handle.addFixtures (fun _ => ["gen"]) c2Base.1
    (.cons "b.txt" (.file "b") .nil) c2Base.2

/-- Scenario: base fixture `{a.txt: "one"}` at root `p`, to be forked with
a colliding fixture so that the built state reflects the final copy. -/
def c2fBase : Handle × FsState :=
  createIFF (fun _ => ["gen"]) (.cons "a.txt" (.file "one") .nil)
    (some ["p"]) none ⟨[], 0, []⟩

/-- Scenario: fork of that base with the colliding fixture `{a.txt: "two"}`
onto root `q`; the built state holds `q/a.txt = "one"` because the fork's
copy runs last. -/
def c2fFork : Except Err Handle × FsState :=
  Handle.fork (fun _ => ["gen"]) c2fBase.1 (.cons "a.txt" (.file "two") .nil)
    (some ["q"]) c2fBase.2

/-- The fork-built handle of that scenario. -/
def c2fHandle : Handle :=
  match c2fFork.1 with
  | .ok h => h
  | .error _ => ⟨[], [], []⟩

deriving instance DecidableEq for Except

/-- Witness scenario for C4: base `{x.txt: "1"}` at root `a`. -/
def c4wBase : Handle × FsState :=
  createIFF (fun _ => ["gen"]) (.cons "x.txt" (.file "1") .nil)
    (some ["a"]) none ⟨[], 0, []⟩

/-- Witness scenario: fork with `{y.txt: "2"}` onto the disjoint root `b`. -/
def c4wFork : Except Err Handle × FsState :=
  Handle.fork (fun _ => ["gen"]) c4wBase.1 (.cons "y.txt" (.file "2") .nil)
    (some ["b"]) c4wBase.2

/-- The handle returned by the disjoint-root fork. -/
def c4wHandle : Handle :=
  match c4wFork.1 with
  | .ok h => h
  | .error _ => ⟨[], [], []⟩

/-- The first of two optional values that is present. -/
def firstSome {V : Type} (a b : Option V) : Option V :=
  match a with
  | some v => some v
  | none => b

/-- The keys an insertion sequence appends: the keys of the list, in
declared order, first occurrences only, skipping keys already present. -/
def newKeys {K : Type} [DecidableEq K] : List K → List K → List K
  | [], _ => []
  | k :: rest, seen =>
      if k ∈ seen then newKeys rest seen else k :: newKeys rest (seen ++ [k])

/-! The flattener's key order: every emitted path's proper ancestors were
emitted earlier.  `AncCov seen L` states that each element of `L` has all of
its nonempty proper prefixes among `seen` or among the earlier elements. -/

/-- Each element's nonempty proper prefixes occur in `seen` or earlier. -/
def AncCov (seen : List FPath) : List FPath → Prop
  | [] => True
  | q :: rest =>
      (∀ p, p ≠ [] → p <+: q → p ≠ q → p ∈ seen) ∧ AncCov (q :: seen) rest

mutual
/-- The resolved relative paths of the file leaves of a specification. -/
def leafPathsD : Directory → FPath → List FPath
  | .nil, _ => []
  | .cons k it rest, rel =>
      leafPathsItem it (rel ++ splitKey k) ++ leafPathsD rest rel

/-- The resolved relative paths of the file leaves below one node. -/
def leafPathsItem : DirectoryItem → FPath → List FPath
  | .file _, rel => [rel]
  | .dir d, rel => leafPathsD d rel
end

/-! Basic facts about the association-list filesystem. -/

theorem getEntry_setEntry (p : FPath) (e : Entry) (fs : Fs) (q : FPath) :
    getEntry (setEntry p e fs) q = if q = p then some e else getEntry fs q := by
  induction fs with
  | nil =>
      simp only [setEntry, getEntry]
      rcases eq_or_ne q p with h | h
      · subst h; simp
      · rw [if_neg (fun hh => h hh.symm), if_neg h]
  | cons a rest ih =>
      simp only [setEntry]
      rcases eq_or_ne a.1 p with h1 | h1
      · rw [if_pos h1]
        simp only [getEntry]
        rcases eq_or_ne q p with h | h
        · subst h; rw [if_pos rfl, if_pos rfl]
        · rw [if_neg (fun hh => h hh.symm), if_neg h,
            if_neg (fun hh : a.1 = q => h (h1 ▸ hh.symm ▸ rfl))]
  
      · rw [if_neg h1]
        simp only [getEntry, ih]
        rcases eq_or_ne a.1 q with h2 | h2
        · rw [if_pos h2, if_pos h2, if_neg (fun hh : q = p => h1 (h2.trans hh))]
        · rw [if_neg h2, if_neg h2]

theorem isPrefixOf_eq_false {l₁ l₂ : FPath} (h : ¬ l₁ <+: l₂) :
    l₁.isPrefixOf l₂ = false := by
  rw [Bool.eq_false_iff]
  simp [List.isPrefixOf_iff_prefix, h]

theorem getEntry_remove (p : FPath) (fs : Fs) (q : FPath) :
    getEntry (fs.filter (fun r => !(p.isPrefixOf r.1))) q =
      if p <+: q then none else getEntry fs q := by
  induction fs with
  | nil => simp [getEntry]
  | cons a rest ih =>
      rw [List.filter_cons]
      by_cases hp : p <+: a.1
      · rw [if_neg (by simp [hp]), ih]
        by_cases hq : p <+: q
        · rw [if_pos hq, if_pos hq]
        · rw [if_neg hq, if_neg hq]
          have hne : a.1 ≠ q := fun hh => hq (hh ▸ hp)
          simp only [getEntry, if_neg hne]
      · rw [if_pos (by simp [isPrefixOf_eq_false hp])]
        simp only [getEntry]
        rcases eq_or_ne a.1 q with h | h
        · subst h
          rw [if_pos rfl, if_neg hp, if_pos rfl]
        · rw [if_neg h, if_neg h, ih]

theorem getEntry_foldl_setEntry {β : Type} (l : List β) (tgt : β → FPath)
    (ent : β → Entry) (fs : Fs) (q : FPath) (h : ∀ b ∈ l, tgt b ≠ q) :
    getEntry (l.foldl (fun acc b => setEntry (tgt b) (ent b) acc) fs) q =
      getEntry fs q := by
  induction l generalizing fs with
  | nil => rfl
  | cons b t ih =>
      simp only [List.foldl_cons]
      rw [ih _ (fun x hx => h x (List.mem_cons_of_mem _ hx)),
        getEntry_setEntry, if_neg (fun hh => h b (List.mem_cons_self b t) hh.symm)]


theorem getEntry_applyEv_mkdir (fs : Fs) (r p : FPath) :
    getEntry (applyEv fs (.mkdir r)) p =
      if r = p then red (getEntry fs p) .mk else getEntry fs p := by
  simp only [applyEv]
  rcases eq_or_ne r p with h | h
  · subst h
    by_cases hs : (getEntry fs r).isSome
    · rw [if_pos hs, if_pos rfl]
      simp [red, hs]
    · rw [if_neg hs, if_pos rfl, getEntry_setEntry, if_pos rfl]
      have hn : getEntry fs r = none := by
        cases hv : getEntry fs r with
        | none => rfl
        | some x => rw [hv] at hs; simp at hs
      simp [red, hn]
  · by_cases hs : (getEntry fs r).isSome
    · rw [if_pos hs, if_neg h]
    · rw [if_neg hs, if_neg h, getEntry_setEntry, if_neg (fun hh => h hh.symm)]

theorem getEntry_applyEv_write (fs : Fs) (r p : FPath) (c : String) :
    getEntry (applyEv fs (.write r c)) p =
      if r = p then red (getEntry fs p) (.wr c) else getEntry fs p := by
  rcases eq_or_ne r p with h | h
  · subst h
    simp only [applyEv, getEntry_setEntry, red, if_pos rfl]
  · simp only [applyEv, getEntry_setEntry]
    rw [if_neg (fun hh => h hh.symm), if_neg h]

theorem getEntry_applyEvents :
    ∀ (es : List Ev) (fs : Fs) (p : FPath), (∀ e ∈ es, e.isMW) →
      getEntry (applyEvents fs es) p =
        (projAt p es).foldl red (getEntry fs p) := by
  intro es
  induction es with
  | nil => intro fs p _; rfl
  | cons e t ih =>
      intro fs p hmw
      have he : e.isMW := hmw e (List.mem_cons_self e t)
      have ht : ∀ x ∈ t, x.isMW := fun x hx => hmw x (List.mem_cons_of_mem _ hx)
      have hrest := ih (applyEv fs e) p ht
      show getEntry (applyEvents (applyEv fs e) t) p = _
      rw [hrest]
      cases e with
      | mkdir r =>
          rw [getEntry_applyEv_mkdir]
          rcases eq_or_ne r p with h | h
          · rw [if_pos h]
            have hproj : projAt p (Ev.mkdir r :: t) = .mk :: projAt p t := by
              simp [projAt, evProj, h]
            rw [hproj, List.foldl_cons]
          · rw [if_neg h]
            have hproj : projAt p (Ev.mkdir r :: t) = projAt p t := by
              simp [projAt, evProj, h]
            rw [hproj]
      | write r c =>
          rw [getEntry_applyEv_write]
          rcases eq_or_ne r p with h | h
          · rw [if_pos h]
            have hproj : projAt p (Ev.write r c :: t) = .wr c :: projAt p t := by
              simp [projAt, evProj, h]
            rw [hproj, List.foldl_cons]
          · rw [if_neg h]
            have hproj : projAt p (Ev.write r c :: t) = projAt p t := by
              simp [projAt, evProj, h]
            rw [hproj]
      | copy a b => simp [Ev.isMW] at he
      | remove a => simp [Ev.isMW] at he
      | readdir a => simp [Ev.isMW] at he

/-! Algebra of the projected-event fold. -/

theorem red_isSome (v : Option Entry) (w : Wr) : (red v w).isSome := by
  cases w with
  | mk =>
      by_cases h : v.isSome
      · simp [red, h]
      · simp [red, h]
  | wr c => simp [red]

theorem foldl_red_isSome (l : List Wr) (v : Option Entry) (h : l ≠ []) :
    (l.foldl red v).isSome := by
  induction l generalizing v with
  | nil => exact absurd rfl h
  | cons w t ih =>
      rcases t with _ | ⟨w2, t2⟩
      · simpa using red_isSome v w
      · exact ih (red v w) (by simp)

theorem foldl_red_mk_only (l : List Wr) (v : Option Entry)
    (hl : ∀ w ∈ l, w = .mk) (hv : v.isSome) : l.foldl red v = v := by
  induction l with
  | nil => rfl
  | cons w t ih =>
      have hw : w = Wr.mk := hl w (List.mem_cons_self w t)
      subst hw
      have : red v .mk = v := by simp [red, hv]
      rw [List.foldl_cons, this]
      exact ih (fun x hx => hl x (List.mem_cons_of_mem _ hx))

theorem foldl_red_last_wr (l₁ : List Wr) (c : String) (l₂ : List Wr)
    (h₂ : ∀ w ∈ l₂, w = .mk) (v : Option Entry) :
    (l₁ ++ .wr c :: l₂).foldl red v = some (.file c) := by
  rw [List.foldl_append, List.foldl_cons]
  exact foldl_red_mk_only l₂ _ h₂ (by simp [red])

theorem exists_last_wr (l : List Wr) (h : ¬ ∀ w ∈ l, w = .mk) :
    ∃ l₁ c l₂, l = l₁ ++ .wr c :: l₂ ∧ ∀ w ∈ l₂, w = .mk := by
  induction l using List.reverseRecOn with
  | nil => exact absurd (by simp) h
  | append_singleton t a ih =>
      cases a with
      | mk =>
          have ht : ¬ ∀ w ∈ t, w = Wr.mk := by
            intro hall
            exact h (by
              intro w hw
              rcases List.mem_append.mp hw with hw | hw
              · exact hall w hw
              · simpa using hw)
          obtain ⟨l₁, c, l₂, hdec, hmk⟩ := ih ht
          refine ⟨l₁, c, l₂ ++ [.mk], by rw [hdec]; simp, ?_⟩
          intro w hw
          rcases List.mem_append.mp hw with hw | hw
          · exact hmk w hw
          · simpa using hw
      | wr c => exact ⟨t, c, [], rfl, by simp⟩

theorem foldl_red_idem (l : List Wr) (v : Option Entry) :
    l.foldl red (l.foldl red v) = l.foldl red v := by
  by_cases hmk : ∀ w ∈ l, w = .mk
  · rcases eq_or_ne l [] with h | h
    · subst h; rfl
    · have hs := foldl_red_isSome l v h
      exact foldl_red_mk_only l _ hmk hs
  · obtain ⟨l₁, c, l₂, hdec, h₂⟩ := exists_last_wr l hmk
    subst hdec
    rw [foldl_red_last_wr l₁ c l₂ h₂ v, foldl_red_last_wr]
    exact h₂

/-! The materializer emits only mkdir and write events, and every event it
emits at root `r` targets a path comparable with `r`. -/

theorem mkdirpEvents_isMW (p : FPath) : ∀ e ∈ mkdirpEvents p, e.isMW := by
  intro e he
  simp only [mkdirpEvents, List.mem_map] at he
  obtain ⟨i, _, rfl⟩ := he
  rfl

mutual
theorem entriesEvents_isMW (d : Directory) (abs : FPath) :
    ∀ e ∈ entriesEvents d abs, e.isMW := by
  cases d with
  | nil => intro e he; simp [entriesEvents] at he
  | cons k it rest =>
      intro e he
      simp only [entriesEvents, List.mem_append] at he
      rcases he with he | he
      · exact itemEvents_isMW it _ e he
      · exact entriesEvents_isMW rest abs e he

theorem itemEvents_isMW (it : DirectoryItem) (abs : FPath) :
    ∀ e ∈ itemEvents it abs, e.isMW := by
  cases it with
  | file c =>
      intro e he
      simp only [itemEvents, List.mem_append] at he
      rcases he with he | he
      · exact mkdirpEvents_isMW _ e he
      · simp only [List.mem_singleton] at he
        subst he; rfl
  | dir d =>
      intro e he
      simp only [itemEvents, List.mem_append] at he
      rcases he with he | he
      · exact mkdirpEvents_isMW _ e he
      · exact entriesEvents_isMW d abs e he
end

theorem createIFFImplEvents_isMW (d : Directory) (abs : FPath) :
    ∀ e ∈ createIFFImplEvents d abs, e.isMW := by
  intro e he
  simp only [createIFFImplEvents, List.mem_append] at he
  rcases he with he | he
  · exact mkdirpEvents_isMW _ e he
  · exact entriesEvents_isMW d abs e he

theorem writeFixturesEvents_isMW (lin : List Directory) (root : FPath) :
    ∀ e ∈ writeFixturesEvents lin root, e.isMW := by
  intro e he
  simp only [writeFixturesEvents, List.mem_flatten, List.mem_map] at he
  obtain ⟨l, ⟨d, _, rfl⟩, hel⟩ := he
  exact createIFFImplEvents_isMW d root e hel

theorem writeFixturesEvents_append (l₁ l₂ : List Directory) (root : FPath) :
    writeFixturesEvents (l₁ ++ l₂) root =
      writeFixturesEvents l₁ root ++ writeFixturesEvents l₂ root := by
  simp [writeFixturesEvents]

/-! Every materializer event at root `r` targets a path comparable with `r`,
so materializing at one root cannot touch a disjoint root's subtree. -/


theorem ascPrefixes_mem :
    ∀ (s : List String) (acc q : FPath), q ∈ ascPrefixes acc s →
      acc <+: q ∧ q <+: acc ++ s ∧ acc.length < q.length := by
  intro s
  induction s with
  | nil => intro acc q hq; simp [ascPrefixes] at hq
  | cons seg s' ih =>
      intro acc q hq
      rcases List.mem_cons.mp hq with h | h
      · subst h
        refine ⟨List.prefix_append _ _, ?_, by simp⟩
        rw [show acc ++ seg :: s' = (acc ++ [seg]) ++ s' by simp]
        exact List.prefix_append _ _
      · obtain ⟨h1, h2, h3⟩ := ih (acc ++ [seg]) q h
        refine ⟨(List.prefix_append acc [seg]).trans h1, ?_, ?_⟩
        · rw [show acc ++ seg :: s' = (acc ++ [seg]) ++ s' by simp]
          exact h2
        · have hlen : acc.length < (acc ++ [seg]).length := by simp
          omega

theorem mkdirpEvents_path (q : FPath) :
    ∀ e ∈ mkdirpEvents q, ∀ p, evPath e = some p → p <+: q := by
  intro e he p hp
  simp only [mkdirpEvents, List.mem_map] at he
  obtain ⟨x, hx, rfl⟩ := he
  simp only [evPath] at hp
  cases hp
  exact (ascPrefixes_mem q [] p hx).2.1

mutual
theorem entriesEvents_path (d : Directory) (abs r : FPath) (hr : r <+: abs) :
    ∀ e ∈ entriesEvents d abs, ∀ p, evPath e = some p → p <+: r ∨ r <+: p := by
  cases d with
  | nil => intro e he; simp [entriesEvents] at he
  | cons k it rest =>
      intro e he p hp
      simp only [entriesEvents, List.mem_append] at he
      rcases he with he | he
      · exact itemEvents_path it (abs ++ splitKey k) r
          (hr.trans (List.prefix_append abs _)) e he p hp
      · exact entriesEvents_path rest abs r hr e he p hp

theorem itemEvents_path (it : DirectoryItem) (abs r : FPath) (hr : r <+: abs) :
    ∀ e ∈ itemEvents it abs, ∀ p, evPath e = some p → p <+: r ∨ r <+: p := by
  cases it with
  | file c =>
      intro e he p hp
      simp only [itemEvents, List.mem_append, List.mem_singleton] at he
      rcases he with he | he
      · have hpq := mkdirpEvents_path _ e he p hp
        have habs : p <+: abs := hpq.trans (List.dropLast_prefix abs)
        exact List.prefix_or_prefix_of_prefix habs hr
      · subst he
        simp only [evPath] at hp
        cases hp
        exact Or.inr hr
  | dir d =>
      intro e he p hp
      simp only [itemEvents, List.mem_append] at he
      rcases he with he | he
      · have hpq := mkdirpEvents_path _ e he p hp
        exact List.prefix_or_prefix_of_prefix hpq hr
      · exact entriesEvents_path d abs r hr e he p hp
end

theorem createIFFImplEvents_path (d : Directory) (r : FPath) :
    ∀ e ∈ createIFFImplEvents d r, ∀ p, evPath e = some p →
      p <+: r ∨ r <+: p := by
  intro e he p hp
  simp only [createIFFImplEvents, List.mem_append] at he
  rcases he with he | he
  · exact Or.inl (mkdirpEvents_path _ e he p hp)
  · exact entriesEvents_path d r r List.prefix_rfl e he p hp

theorem writeFixturesEvents_path (lin : List Directory) (r : FPath) :
    ∀ e ∈ writeFixturesEvents lin r, ∀ p, evPath e = some p →
      p <+: r ∨ r <+: p := by
  intro e he p hp
  simp only [writeFixturesEvents, List.mem_flatten, List.mem_map] at he
  obtain ⟨l, ⟨d, _, rfl⟩, hel⟩ := he
  exact createIFFImplEvents_path d r e hel p hp

/-! A sequence of mkdir and write events that never targets a path leaves
that path's entry unchanged. -/

theorem projAt_eq_nil (p : FPath) (es : List Ev)
    (h : ∀ e ∈ es, evPath e ≠ some p) : projAt p es = [] := by
  induction es with
  | nil => rfl
  | cons e t ih =>
      have he := h e (List.mem_cons_self e t)
      have hnone : evProj p e = none := by
        cases e with
        | mkdir q =>
            simp only [evPath] at he
            simp only [evProj, if_neg (fun hh : q = p => he (by rw [hh]))]
        | write q c =>
            simp only [evPath] at he
            simp only [evProj, if_neg (fun hh : q = p => he (by rw [hh]))]
        | copy a b => rfl
        | remove a => rfl
        | readdir a => rfl
      simp only [projAt, List.filterMap_cons, hnone]
      exact ih (fun x hx => h x (List.mem_cons_of_mem _ hx))

theorem getEntry_applyEvents_untouched (es : List Ev) (fs : Fs) (p : FPath)
    (hmw : ∀ e ∈ es, e.isMW) (h : ∀ e ∈ es, evPath e ≠ some p) :
    getEntry (applyEvents fs es) p = getEntry fs p := by
  rw [getEntry_applyEvents es fs p hmw, projAt_eq_nil p es h, List.foldl_nil]

theorem getEntry_applyEv_copy (fs : Fs) (src dst p : FPath)
    (h : ¬ dst <+: p) :
    getEntry (applyEv fs (.copy src dst)) p = getEntry fs p := by
  simp only [applyEv]
  exact getEntry_foldl_setEntry _ _ _ fs p
    (fun b _ hb => h (hb ▸ List.prefix_append dst _))

/-! Destructor lemmas for the state-passing operations. -/

theorem cpOp_gen (src dst : FPath) (st : FsState) :
    (cpOp src dst st).2.gen = st.gen := by
  unfold cpOp
  split_ifs <;> rfl

theorem forkCore_eq (h : Handle) (dir : Directory) (r : FPath) (st : FsState)
    (hr : r ≠ h.root) :
    forkCore h dir r st =
      ((match (cpOp h.root r (createIFFAt dir r (some h) st).2).1 with
         | .ok _ => .ok (createIFFAt dir r (some h) st).1
         | .error e => .error e),
       (cpOp h.root r (createIFFAt dir r (some h) st).2).2) := by
  simp only [forkCore, if_neg hr]
  rcases hcp : cpOp h.root r (createIFFAt dir r (some h) st).2 with ⟨res, st3⟩
  cases res <;> rfl

theorem forkCore_gen (h : Handle) (dir : Directory) (r : FPath)
    (st : FsState) : (forkCore h dir r st).2.gen = st.gen := by
  by_cases hr : r = h.root
  · simp [forkCore, hr]
  · rw [forkCore_eq h dir r st hr]
    exact cpOp_gen _ _ _

/-- C9: `rmRootDir` recursively deletes the root directory and everything
under it, succeeds without error even when the root directory is already
absent, and repeated calls are idempotent on the filesystem. -/
theorem c9_rmRootDir_recursive_tolerant_idempotent (h : Handle) (st : FsState) :
    (h.rmRootDir st).1 = .ok () ∧
    (∀ p, getEntry (h.rmRootDir st).2.fs p =
      if h.root <+: p then none else getEntry st.fs p) ∧
    (h.rmRootDir (h.rmRootDir st).2).2.fs = (h.rmRootDir st).2.fs := by
  refine ⟨rfl, fun p => ?_, ?_⟩
  · show getEntry (applyEv st.fs (.remove h.root)) p = _
    simp only [applyEv]
    exact getEntry_remove h.root st.fs p
  · show applyEv (applyEv st.fs (.remove h.root)) (.remove h.root) =
      applyEv st.fs (.remove h.root)
    simp only [applyEv]
    rw [List.filter_filter]
    simp

/-- C10: when the root directory does not exist, `rmFixtures` fails with a
not-found error before deleting anything (the state is unchanged), while
`rmRootDir` on the same state succeeds. -/
theorem c10_rmFixtures_requires_root (h : Handle) (st : FsState)
    (habs : getEntry st.fs h.root = none) :
    (h.rmFixtures st).1 = .error .rootNotFound ∧ (h.rmFixtures st).2 = st ∧
    (h.rmRootDir st).1 = .ok () := by
  refine ⟨?_, ?_, rfl⟩ <;> simp [Handle.rmFixtures, habs]

/-- Witness for C10 at a concrete handle over the empty filesystem. -/
theorem c10_witness :
    (Handle.rmFixtures ⟨["r"], [], []⟩ ⟨[], 0, []⟩).1 = .error .rootNotFound ∧
    (Handle.rmFixtures ⟨["r"], [], []⟩ ⟨[], 0, []⟩).2 = ⟨[], 0, []⟩ ∧
    (Handle.rmRootDir ⟨["r"], [], []⟩ ⟨[], 0, []⟩).1 = .ok () :=
  c10_rmFixtures_requires_root ⟨["r"], [], []⟩ ⟨[], 0, []⟩ (by decide)

/-- C5: a fork whose new root directory equals the handle's current root
fails with an error, and the rejection happens before any filesystem
mutation: the filesystem and the event log are unchanged (with an explicit
override the whole state is returned untouched). -/
theorem c5_self_fork_rejected_before_io (gen : Nat → FPath) (h : Handle)
    (d : Directory) (st : FsState) (r : FPath) (hr : r = h.root) :
    Handle.fork gen h d (some r) st = (.error .sameRootDir, st) ∧
    (gen st.gen = h.root →
      (Handle.fork gen h d none st).1 = .error .sameRootDir ∧
      (Handle.fork gen h d none st).2.fs = st.fs ∧
      (Handle.fork gen h d none st).2.trace = st.trace) := by
  subst hr
  refine ⟨by simp [Handle.fork, forkCore], fun hg => ?_⟩
  simp [Handle.fork, forkCore, hg]

/-- Witness for C5 at a concrete handle. -/
theorem c5_witness :
    Handle.fork (fun _ => ["r"]) ⟨["r"], [], []⟩ .nil (some ["r"]) ⟨[], 0, []⟩
      = (.error .sameRootDir, ⟨[], 0, []⟩) ∧
    ((Handle.fork (fun _ => ["r"]) ⟨["r"], [], []⟩ .nil none ⟨[], 0, []⟩).1
      = .error .sameRootDir ∧
     (Handle.fork (fun _ => ["r"]) ⟨["r"], [], []⟩ .nil none ⟨[], 0, []⟩).2.fs
      = [] ∧
     (Handle.fork (fun _ => ["r"]) ⟨["r"], [], []⟩ .nil none ⟨[], 0, []⟩).2.trace
      = []) := by
  have := c5_self_fork_rejected_before_io (fun _ => ["r"]) ⟨["r"], [], []⟩
    .nil ⟨[], 0, []⟩ ["r"] rfl
  exact ⟨this.1, this.2 rfl⟩

/-- C8: the injected `generateRootDir` is not invoked when an explicit
override root is supplied, is invoked exactly once per `createIFF` call and
per `fork` call otherwise, and for `fork` the invocation happens at fork
time: the generated root is taken from the generator state at the moment of
the call. -/
theorem c8_generateRootDir_invocations (gen : Nat → FPath) (d : Directory)
    (r : FPath) (prev : Option Handle) (h : Handle) (dir : Directory)
    (st : FsState) :
    (createIFF gen d (some r) prev st).2.gen = st.gen ∧
    (createIFF gen d (some r) prev st).1.root = r ∧
    (createIFF gen d none prev st).2.gen = st.gen + 1 ∧
    (createIFF gen d none prev st).1.root = gen st.gen ∧
    (Handle.fork gen h dir (some r) st).2.gen = st.gen ∧
    (Handle.fork gen h dir none st).2.gen = st.gen + 1 ∧
    (∀ h2, (Handle.fork gen h dir none st).1 = .ok h2 → h2.root = gen st.gen) := by
  refine ⟨rfl, rfl, rfl, rfl, forkCore_gen h dir r st,
    forkCore_gen h dir (gen st.gen) _, fun h2 hok => ?_⟩
  by_cases hr : gen st.gen = h.root
  · simp only [Handle.fork, forkCore, if_pos hr] at hok
    exact absurd hok (by simp)
  · simp only [Handle.fork] at hok
    rw [forkCore_eq h dir (gen st.gen) _ hr] at hok
    rcases hcp : (cpOp h.root (gen st.gen)
        (createIFFAt dir (gen st.gen) (some h) { st with gen := st.gen + 1 }).2).1
      with u | e
    · rw [hcp] at hok
      simp at hok
    · rw [hcp] at hok
      simp only [Except.ok.injEq] at hok
      exact hok ▸ rfl

/-- Witness for C8: the implication part at a concrete successful fork. -/
theorem c8_witness :
    ((createIFF (fun _ => ["g"]) .nil (some ["a"]) none ⟨[], 0, []⟩).2.gen = 0) ∧
    ((createIFF (fun _ => ["g"]) .nil none none ⟨[], 0, []⟩).2.gen = 1) ∧
    (∀ h2, (Handle.fork (fun _ => ["g"]) ⟨["a"], [.nil], []⟩ .nil none
        ⟨[(["a"], .dir)], 0, []⟩).1 = .ok h2 → h2.root = ["g"]) := by
  have := c8_generateRootDir_invocations (fun _ => ["g"]) .nil ["a"] none
    ⟨["a"], [.nil], []⟩ .nil ⟨[(["a"], .dir)], 0, []⟩
  exact ⟨this.1, this.2.2.1, this.2.2.2.2.2.2⟩


/-- C1 (failing evaluation): the fork succeeds, its additional fixture
`a.txt = "2"` is written, the very last event of the call is the recursive
copy of the old root, and the colliding file ends up holding the old
generation's content `"1"`: the copy runs after the additional fixtures are
written and overwrites them, not the other way around. -/
theorem c1_fork_copy_after_additional_fixtures :
    exIsOk c1Fork.1 = true ∧
    Ev.write ["r2", "a.txt"] "2" ∈ c1Fork.2.trace ∧
    c1Fork.2.trace.getLast? = some (.copy ["r1"] ["r2"]) ∧
    getEntry c1Fork.2.fs ["r2", "a.txt"] = some (.file "1") := by
  decide


/-- C6 (failing evaluation): immediately after the forked handle is built
the colliding file holds the old generation's content (the copy ran last),
but `rmRootDir()` followed by `writeFixtures()` rebuilds it with the
additional specification's content, so the reset round-trip does not
reproduce the state that existed right after the handle was built. -/
theorem c6_reset_diverges_after_fork :
    exIsOk c6Fork.1 = true ∧
    getEntry c6Fork.2.fs ["q", "a.txt"] = some (.file "one") ∧
    getEntry c6Reset.fs ["q", "a.txt"] = some (.file "two") ∧
    getEntry c6Fork.2.fs ["q", "a.txt"] ≠ getEntry c6Reset.fs ["q", "a.txt"] := by
  decide


/-- C4 (counterexample): a fork targeting a different root directory that
overlaps the source root succeeds and rewrites a file under the original
root: `tmp/a/x.txt` changes from `"old"` to `"new"`. -/
theorem c4_fork_overlapping_root_mutates_source :
    exIsOk c4Fork.1 = true ∧
    (["tmp"] : FPath) ≠ c4Base.1.root ∧
    getEntry c4Base.2.fs ["tmp", "a", "x.txt"] = some (.file "old") ∧
    getEntry c4Fork.2.fs ["tmp", "a", "x.txt"] = some (.file "new") := by
  decide


/-- C2 (counterexample): the events performed by the `addFixtures` call
itself include a write to `r/a.txt`, a path declared solely by the ancestor
generation (the added specification declares only `b.txt`). -/
theorem c2_addFixtures_rewrites_ancestor_paths :
    Ev.write ["r", "a.txt"] "a" ∈ c2Add.2.trace.drop c2Base.2.trace.length ∧
    (["a.txt"] : FPath) ∉
      (getPaths (.cons "b.txt" (.file "b") .nil) ["r"]).map Prod.fst := by
  decide


theorem projAt_append (p : FPath) (e1 e2 : List Ev) :
    projAt p (e1 ++ e2) = projAt p e1 ++ projAt p e2 := by
  simp [projAt]

theorem writeFixturesEvents_singleton (d : Directory) (root : FPath) :
    writeFixturesEvents [d] root = createIFFImplEvents d root := by
  simp [writeFixturesEvents]

/-- C2 (amended): `addFixtures` does not write only the new generation's
tree: the call replays the entire extended lineage at the current root
(first conjunct: the events it performs are exactly that replay), and its
effect on disk is exactly the replay's, from any starting state — a path
the replay never performs a mkdir or write on keeps its entry, and a path
the replay writes ends with the replay's final content whatever was there
before; so ancestor files are rewritten, and on a fork-built handle the
content left at a colliding path by the fork's final copy is replaced by
the lineage's declared content even though the added specification does not
write that path. -/
theorem c2_addFixtures_replays_lineage (gen : Nat → FPath) (root : FPath)
    (lin : List Directory) (P : PathTable) (extra : Directory)
    (st : FsState) :
    ((Handle.addFixtures gen ⟨root, lin, P⟩ extra st).2.trace =
      st.trace ++ writeFixturesEvents (lin ++ [extra]) root) ∧
    (∀ p, projAt p (writeFixturesEvents (lin ++ [extra]) root) = [] →
      getEntry (Handle.addFixtures gen ⟨root, lin, P⟩ extra st).2.fs p =
        getEntry st.fs p) ∧
    (∀ p l₁ c l₂,
      projAt p (writeFixturesEvents (lin ++ [extra]) root) =
        l₁ ++ .wr c :: l₂ →
      (∀ w ∈ l₂, w = .mk) →
      getEntry (Handle.addFixtures gen ⟨root, lin, P⟩ extra st).2.fs p =
        some (.file c)) := by
  have hmw := writeFixturesEvents_isMW (lin ++ [extra]) root
  refine ⟨rfl, fun p hp => ?_, fun p l₁ c l₂ hdec hmk => ?_⟩
  · show getEntry
        (applyEvents st.fs (writeFixturesEvents (lin ++ [extra]) root)) p = _
    rw [getEntry_applyEvents (writeFixturesEvents (lin ++ [extra]) root)
      st.fs p hmw, hp, List.foldl_nil]
  · show getEntry
        (applyEvents st.fs (writeFixturesEvents (lin ++ [extra]) root)) p = _
    rw [getEntry_applyEvents (writeFixturesEvents (lin ++ [extra]) root)
      st.fs p hmw, hdec]
    exact foldl_red_last_wr l₁ c l₂ hmk _

/-- Witness for C2, applied on the genuinely fork-built handle of the
`c2fFork` scenario: the built state holds `q/a.txt = "one"` (the fork's
copy ran last), and `addFixtures({b.txt: "x"})` replays the lineage and
flips it to `"two"` although the added specification never writes that
path, while a path the replay does not touch keeps its entry. -/
theorem c2_witness :
    (⟨["q"],
      [.cons "a.txt" (.file "one") .nil, .cons "a.txt" (.file "two") .nil],
      c2fHandle.paths⟩ : Handle) = c2fHandle ∧
    getEntry c2fFork.2.fs ["q", "a.txt"] = some (.file "one") ∧
    getEntry (Handle.addFixtures (fun _ => ["gen"])
        ⟨["q"],
          [.cons "a.txt" (.file "one") .nil, .cons "a.txt" (.file "two") .nil],
          c2fHandle.paths⟩
        (.cons "b.txt" (.file "x") .nil) c2fFork.2).2.fs ["q", "a.txt"]
      = some (.file "two") ∧
    getEntry (Handle.addFixtures (fun _ => ["gen"])
        ⟨["q"],
          [.cons "a.txt" (.file "one") .nil, .cons "a.txt" (.file "two") .nil],
          c2fHandle.paths⟩
        (.cons "b.txt" (.file "x") .nil) c2fFork.2).2.fs ["z"]
      = getEntry c2fFork.2.fs ["z"] := by
  have h := c2_addFixtures_replays_lineage (fun _ => ["gen"]) ["q"]
    [.cons "a.txt" (.file "one") .nil, .cons "a.txt" (.file "two") .nil]
    c2fHandle.paths (.cons "b.txt" (.file "x") .nil) c2fFork.2
  exact ⟨by decide, by decide,
    h.2.2 ["q", "a.txt"] [.wr "one"] "two" [] (by decide) (by decide),
    h.2.1 ["z"] (by decide)⟩

/-! Machinery for the disjoint-root fork theorem. -/

theorem cpOp_ok (src dst : FPath) (st : FsState) (u : Unit)
    (h : (cpOp src dst st).1 = .ok u) :
    (cpOp src dst st).2 = runEvents st [.copy src dst] := by
  unfold cpOp at h ⊢
  split_ifs at h ⊢
  rfl

theorem forkCore_ok_root (h : Handle) (dir : Directory) (r : FPath)
    (st1 : FsState) (h2 : Handle) (st2 : FsState)
    (hok : forkCore h dir r st1 = (.ok h2, st2)) : h2.root = r := by
  by_cases hr : r = h.root
  · simp [forkCore, hr] at hok
  · rw [forkCore_eq h dir r st1 hr] at hok
    have hfst := congrArg Prod.fst hok
    simp only at hfst
    rcases hcp : (cpOp h.root r (createIFFAt dir r (some h) st1).2).1 with u | e
    · rw [hcp] at hfst
      simp at hfst
    · rw [hcp] at hfst
      simp only [Except.ok.injEq] at hfst
      exact hfst ▸ rfl

theorem forkCore_ok_disjoint (h : Handle) (dir : Directory) (r : FPath)
    (st1 : FsState) (h2 : Handle) (st2 : FsState)
    (hok : forkCore h dir r st1 = (.ok h2, st2))
    (h1 : ¬ h.root <+: r) (hb : ¬ r <+: h.root)
    (p : FPath) (hp : h.root <+: p) :
    getEntry st2.fs p = getEntry st1.fs p := by
  by_cases hr : r = h.root
  · simp [forkCore, hr] at hok
  · rw [forkCore_eq h dir r st1 hr] at hok
    have hfst := congrArg Prod.fst hok
    have hsnd := congrArg Prod.snd hok
    simp only at hfst hsnd
    rcases hcp : (cpOp h.root r (createIFFAt dir r (some h) st1).2).1 with u | e
    · rw [hcp] at hfst
      simp at hfst
    · have hst2 : st2 = runEvents (createIFFAt dir r (some h) st1).2
          [.copy h.root r] := by
        rw [← hsnd]
        exact cpOp_ok _ _ _ e hcp
      have hnp : ¬ r <+: p := by
        intro hrp
        rcases List.prefix_or_prefix_of_prefix hrp hp with hc | hc
        · exact hb hc
        · exact h1 hc
      have hcopy : getEntry st2.fs p =
          getEntry (createIFFAt dir r (some h) st1).2.fs p := by
        rw [hst2]
        show getEntry (applyEvents _ [Ev.copy h.root r]) p = _
        show getEntry (applyEv _ (Ev.copy h.root r)) p = _
        exact getEntry_applyEv_copy _ _ _ _ hnp
      rw [hcopy]
      show getEntry (applyEvents st1.fs
        (writeFixturesEvents (h.lineage ++ [dir]) r)) p = getEntry st1.fs p
      refine getEntry_applyEvents_untouched _ _ _
        (writeFixturesEvents_isMW _ _) ?_
      intro e' he' heq
      rcases writeFixturesEvents_path _ r e' he' p heq with hc | hc
      · exact h1 (hp.trans hc)
      · rcases List.prefix_or_prefix_of_prefix hc hp with hd | hd
        · exact hb hd
        · exact h1 hd

/-- C4 (amended): a successful fork whose new root directory neither
contains nor is contained in the original root directory leaves every entry
under the original root exactly as it was: no file there is modified,
deleted or created by the fork. -/
theorem c4_fork_disjoint_root_preserves_source
    (gen : Nat → FPath) (h : Handle) (dir : Directory)
    (ov : Option FPath) (st : FsState) (h2 : Handle) (st2 : FsState)
    (hok : Handle.fork gen h dir ov st = (.ok h2, st2))
    (h1 : ¬ h.root <+: h2.root) (hb : ¬ h2.root <+: h.root)
    (p : FPath) (hp : h.root <+: p) :
    getEntry st2.fs p = getEntry st.fs p := by
  cases ov with
  | some r =>
      have hok' : forkCore h dir r st = (.ok h2, st2) := hok
      have hroot := forkCore_ok_root h dir r st h2 st2 hok'
      subst hroot
      exact forkCore_ok_disjoint h dir h2.root st h2 st2 hok' h1 hb p hp
  | none =>
      have hok' : forkCore h dir (gen st.gen) { st with gen := st.gen + 1 }
          = (.ok h2, st2) := hok
      have hroot := forkCore_ok_root h dir (gen st.gen) _ h2 st2 hok'
      have := forkCore_ok_disjoint h dir (gen st.gen) _ h2 st2 hok'
        (hroot ▸ h1) (hroot ▸ hb) p hp
      exact this


/-- Witness for C4: applying the disjoint-root theorem at the concrete fork
of root `a` onto root `b`, observed at the source file `a/x.txt`. -/
theorem c4_witness :
    getEntry c4wFork.2.fs ["a", "x.txt"] = getEntry c4wBase.2.fs ["a", "x.txt"] :=
  c4_fork_disjoint_root_preserves_source (fun _ => ["gen"]) c4wBase.1
    (.cons "y.txt" (.file "2") .nil) (some ["b"]) c4wBase.2 c4wHandle
    c4wFork.2 (by decide) (by decide) (by decide) ["a", "x.txt"] (by decide)

/-! Lemmas about JavaScript-object association lists. -/

theorem pLookup_objInsert {K V : Type} [DecidableEq K] (k : K) (v : V)
    (m : List (K × V)) (k' : K) :
    pLookup k' (objInsert k v m) = if k' = k then some v else pLookup k' m := by
  induction m with
  | nil =>
      simp only [objInsert, pLookup]
      rcases eq_or_ne k' k with h | h
      · rw [if_pos h.symm, if_pos h]
      · rw [if_neg (fun hh => h hh.symm), if_neg h]
  | cons q rest ih =>
      simp only [objInsert]
      rcases eq_or_ne q.1 k with h1 | h1
      · rw [if_pos h1]
        simp only [pLookup]
        rcases eq_or_ne k' k with h | h
        · rw [if_pos h.symm, if_pos h]
        · rw [if_neg (fun hh => h hh.symm), if_neg h,
            if_neg (h1 ▸ fun hh => h hh.symm)]
      · rw [if_neg h1]
        simp only [pLookup, ih]
        rcases eq_or_ne q.1 k' with h2 | h2
        · rw [if_pos h2, if_pos h2, if_neg (fun hh : k' = k => h1 (h2 ▸ hh))]
        · rw [if_neg h2, if_neg h2]

theorem objOfList_snoc {K V : Type} [DecidableEq K] (l : List (K × V))
    (q : K × V) : objOfList (l ++ [q]) = objInsert q.1 q.2 (objOfList l) := by
  simp [objOfList, List.foldl_append]

theorem pLookup_append {K V : Type} [DecidableEq K] (k : K)
    (a b : List (K × V)) :
    pLookup k (a ++ b) = firstSome (pLookup k a) (pLookup k b) := by
  induction a with
  | nil => rfl
  | cons q rest ih =>
      simp only [List.cons_append, pLookup]
      rcases eq_or_ne q.1 k with h | h
      · rw [if_pos h, if_pos h]
        rfl
      · rw [if_neg h, if_neg h]
        exact ih

theorem pLookup_objOfList {K V : Type} [DecidableEq K] (k : K)
    (L : List (K × V)) : pLookup k (objOfList L) = pLookup k L.reverse := by
  induction L using List.reverseRecOn with
  | nil => rfl
  | append_singleton l q ih =>
      rw [objOfList_snoc, pLookup_objInsert, List.reverse_append, ih]
      simp only [List.reverse_singleton, List.singleton_append, pLookup]
      rcases eq_or_ne k q.1 with h | h
      · rw [if_pos h, if_pos h.symm]
      · rw [if_neg h, if_neg (fun hh => h hh.symm)]
        rfl

theorem mem_of_pLookup_eq_some {K V : Type} [DecidableEq K] {k : K} {v : V}
    {l : List (K × V)} (h : pLookup k l = some v) : (k, v) ∈ l := by
  induction l with
  | nil => simp [pLookup] at h
  | cons q rest ih =>
      simp only [pLookup] at h
      by_cases hq : q.1 = k
      · rw [if_pos hq] at h
        injection h with h2
        have hq2 : q = (k, v) := by
          cases q
          simp_all
        exact List.mem_cons.mpr (Or.inl hq2.symm)
      · rw [if_neg hq] at h
        exact List.mem_cons_of_mem _ (ih h)

theorem pLookup_eq_none_iff {K V : Type} [DecidableEq K] (k : K)
    (l : List (K × V)) : pLookup k l = none ↔ k ∉ l.map Prod.fst := by
  induction l with
  | nil => simp [pLookup]
  | cons q rest ih =>
      simp only [pLookup, List.map_cons, List.mem_cons]
      rcases eq_or_ne q.1 k with h | h
      · rw [if_pos h]
        simp [h]
      · rw [if_neg h]
        rw [ih]
        constructor
        · intro hn hc
          rcases hc with hc | hc
          · exact h hc.symm
          · exact hn hc
        · intro hn hc
          exact hn (Or.inr hc)

theorem pLookup_eq_some_of_mem {K V : Type} [DecidableEq K] {k : K} {v : V}
    {l : List (K × V)} (hmem : (k, v) ∈ l) (hnd : (l.map Prod.fst).Nodup) :
    pLookup k l = some v := by
  induction l with
  | nil => simp at hmem
  | cons q rest ih =>
      simp only [List.map_cons, List.nodup_cons] at hnd
      rcases List.mem_cons.mp hmem with h | h
      · subst h
        simp [pLookup]
      · have hne : q.1 ≠ k := by
          intro hh
          exact hnd.1 (hh ▸ List.mem_map_of_mem Prod.fst h)
        simp only [pLookup, if_neg hne]
        exact ih h hnd.2

theorem pLookup_reverse_of_nodup {K V : Type} [DecidableEq K] (k : K)
    (l : List (K × V)) (hnd : (l.map Prod.fst).Nodup) :
    pLookup k l.reverse = pLookup k l := by
  have hndr : (l.reverse.map Prod.fst).Nodup := by
    rw [List.map_reverse]
    exact List.nodup_reverse.mpr hnd
  cases hv : pLookup k l with
  | some v =>
      exact pLookup_eq_some_of_mem
        (List.mem_reverse.mpr (mem_of_pLookup_eq_some hv)) hndr
  | none =>
      rw [pLookup_eq_none_iff] at hv ⊢
      intro hc
      apply hv
      rw [List.map_reverse] at hc
      exact List.mem_reverse.mp hc

/-! Key lists of JavaScript objects. -/

theorem objInsert_keys {K V : Type} [DecidableEq K] (k : K) (v : V)
    (m : List (K × V)) :
    (objInsert k v m).map Prod.fst =
      if k ∈ m.map Prod.fst then m.map Prod.fst else m.map Prod.fst ++ [k] := by
  induction m with
  | nil => simp [objInsert]
  | cons q rest ih =>
      simp only [objInsert, List.map_cons, List.mem_cons]
      rcases eq_or_ne q.1 k with h | h
      · rw [if_pos h, if_pos (Or.inl h.symm)]
        simp [h]
      · rw [if_neg h]
        simp only [List.map_cons, ih]
        by_cases hm : k ∈ rest.map Prod.fst
        · rw [if_pos hm, if_pos (Or.inr hm)]
        · rw [if_neg hm, if_neg (by
            intro hc
            rcases hc with hc | hc
            · exact h hc.symm
            · exact hm hc)]
          simp

theorem objInsert_keys_nodup {K V : Type} [DecidableEq K] (k : K) (v : V)
    (m : List (K × V)) (h : (m.map Prod.fst).Nodup) :
    ((objInsert k v m).map Prod.fst).Nodup := by
  rw [objInsert_keys]
  by_cases hm : k ∈ m.map Prod.fst
  · rw [if_pos hm]; exact h
  · rw [if_neg hm]
    rw [List.nodup_append]
    refine ⟨h, List.nodup_singleton _, ?_⟩
    intro a ha hb
    simp only [List.mem_singleton] at hb
    exact hm (hb ▸ ha)


theorem foldl_objInsert_keys {K V : Type} [DecidableEq K] (B : List (K × V))
    (m : List (K × V)) :
    ((B.foldl (fun m q => objInsert q.1 q.2 m) m).map Prod.fst) =
      m.map Prod.fst ++ newKeys (B.map Prod.fst) (m.map Prod.fst) := by
  induction B generalizing m with
  | nil => simp [newKeys]
  | cons q B2 ih =>
      simp only [List.foldl_cons, List.map_cons, newKeys]
      rw [ih]
      by_cases hm : q.1 ∈ m.map Prod.fst
      · rw [if_pos hm]
        rw [objInsert_keys, if_pos hm]
      · rw [if_neg hm]
        rw [objInsert_keys, if_neg hm]
        simp

theorem newKeys_congr {K : Type} [DecidableEq K] (bs : List K)
    (s1 s2 : List K) (h : ∀ x, x ∈ s1 ↔ x ∈ s2) :
    newKeys bs s1 = newKeys bs s2 := by
  induction bs generalizing s1 s2 with
  | nil => rfl
  | cons k rest ih =>
      simp only [newKeys]
      by_cases hk : k ∈ s1
      · rw [if_pos hk, if_pos ((h k).mp hk)]
        exact ih s1 s2 h
      · rw [if_neg hk, if_neg (fun hc => hk ((h k).mpr hc))]
        refine congrArg (k :: ·) (ih _ _ fun x => ?_)
        simp only [List.mem_append, List.mem_singleton]
        exact or_congr (h x) Iff.rfl

theorem newKeys_of_nodup {K : Type} [DecidableEq K] (bs : List K)
    (seen : List K) (h : bs.Nodup) :
    newKeys bs seen = bs.filter (fun k => k ∉ seen) := by
  induction bs generalizing seen with
  | nil => rfl
  | cons k rest ih =>
      simp only [List.nodup_cons] at h
      simp only [newKeys, List.filter_cons]
      by_cases hk : k ∈ seen
      · rw [if_pos hk, if_neg (by simp [hk]), ih seen h.2]
      · rw [if_neg hk, if_pos (by simp [hk])]
        rw [ih _ h.2]
        refine congrArg (k :: ·) (List.filter_congr fun x hx => ?_)
        have hxk : x ≠ k := fun hh => h.1 (hh ▸ hx)
        simp [hxk]

theorem objOfList_keys_nodup {K V : Type} [DecidableEq K] (L : List (K × V)) :
    ((objOfList L).map Prod.fst).Nodup := by
  induction L using List.reverseRecOn with
  | nil => simp [objOfList]
  | append_singleton l q ih =>
      rw [objOfList_snoc]
      exact objInsert_keys_nodup q.1 q.2 _ ih

theorem objOfList_keys_of_nodup {K V : Type} [DecidableEq K]
    (L : List (K × V)) (h : (L.map Prod.fst).Nodup) :
    (objOfList L).map Prod.fst = L.map Prod.fst := by
  have hk := foldl_objInsert_keys L ([] : List (K × V))
  rw [show (L.foldl (fun m q => objInsert q.1 q.2 m) ([] : List (K × V)))
      = objOfList L from rfl] at hk
  rw [hk, newKeys_of_nodup _ _ h]
  simp

theorem changeRoot_keys (P : PathTable) (root : FPath) :
    (changeRootDirOfPaths P root).map Prod.fst = P.map Prod.fst := by
  rw [changeRootDirOfPaths, List.map_map]
  rfl

theorem pLookup_changeRoot (P : PathTable) (root : FPath) (k : FPath)
    (hP : ∀ q ∈ P, q.2 = root ++ q.1) :
    pLookup k (changeRootDirOfPaths P root) = pLookup k P := by
  induction P with
  | nil => rfl
  | cons q rest ih =>
      have hrest := ih (fun x hx => hP x (List.mem_cons_of_mem _ hx))
      by_cases h : q.1 = k
      · simp only [changeRootDirOfPaths, List.map_cons, pLookup]
        rw [if_pos h, if_pos h, hP q (List.mem_cons_self q rest)]
      · simp only [changeRootDirOfPaths, List.map_cons, pLookup]
        rw [if_neg h, if_neg h]
        exact hrest

/-- C3: for every handle with root `root` and path table `P` (the table's
entries sitting under that root, with no duplicate keys), `addFixtures`
returns a handle with the same root directory whose path table is `P` with
the new specification's keys appended (first occurrences, declaration
order), where lookup of a colliding key yields the new specification's
value and lookup of every other key yields exactly its old entry of `P`. -/
theorem c3_addFixtures_path_table (gen : Nat → FPath) (root : FPath)
    (lin : List Directory) (P : PathTable) (extra : Directory) (st : FsState)
    (hP : ∀ q ∈ P, q.2 = root ++ q.1)
    (hN : (P.map Prod.fst).Nodup) :
    (Handle.addFixtures gen ⟨root, lin, P⟩ extra st).1.root = root ∧
    ((Handle.addFixtures gen ⟨root, lin, P⟩ extra st).1.paths.map Prod.fst =
      P.map Prod.fst ++
        ((getPaths extra root).map Prod.fst).filter
          (fun k => k ∉ P.map Prod.fst)) ∧
    (∀ k, pLookup k (Handle.addFixtures gen ⟨root, lin, P⟩ extra st).1.paths =
      firstSome (pLookup k (getPaths extra root)) (pLookup k P)) := by
  have hAkeys : (changeRootDirOfPaths P root).map Prod.fst = P.map Prod.fst :=
    changeRoot_keys P root
  have hAnodup : ((changeRootDirOfPaths P root).map Prod.fst).Nodup := by
    rw [hAkeys]; exact hN
  have hBnodup : ((getPaths extra root).map Prod.fst).Nodup :=
    objOfList_keys_nodup _
  refine ⟨rfl, ?_, ?_⟩
  · show (objOfList (changeRootDirOfPaths P root ++ getPaths extra root)).map
        Prod.fst = _
    have hsplit : objOfList (changeRootDirOfPaths P root ++ getPaths extra root)
        = (getPaths extra root).foldl (fun m q => objInsert q.1 q.2 m)
            (objOfList (changeRootDirOfPaths P root)) := by
      simp [objOfList, List.foldl_append]
    rw [hsplit, foldl_objInsert_keys, objOfList_keys_of_nodup _ hAnodup,
      hAkeys, newKeys_of_nodup _ _ hBnodup]
    exact congrArg (List.map Prod.fst P ++ ·)
      (List.filter_congr fun x _ => decide_eq_decide.mpr Iff.rfl)
  · intro k
    show pLookup k
        (objOfList (changeRootDirOfPaths P root ++ getPaths extra root)) = _
    rw [pLookup_objOfList, List.reverse_append, pLookup_append,
      pLookup_reverse_of_nodup _ _ hBnodup,
      pLookup_reverse_of_nodup _ _ hAnodup, pLookup_changeRoot P root k hP]

/-- Witness for C3 at a concrete handle: base table for `{a.txt, b.txt}`
under root `r`, extended with `{b.txt, c.txt}`. -/
theorem c3_witness :
    (Handle.addFixtures (fun _ => ["gen"])
        ⟨["r"], [],
          [(["a.txt"], ["r", "a.txt"]), (["b.txt"], ["r", "b.txt"])]⟩
        (.cons "b.txt" (.file "B") (.cons "c.txt" (.file "C") .nil))
        ⟨[], 0, []⟩).1.root = ["r"] ∧
    ((Handle.addFixtures (fun _ => ["gen"])
        ⟨["r"], [],
          [(["a.txt"], ["r", "a.txt"]), (["b.txt"], ["r", "b.txt"])]⟩
        (.cons "b.txt" (.file "B") (.cons "c.txt" (.file "C") .nil))
        ⟨[], 0, []⟩).1.paths.map Prod.fst =
      [["a.txt"], ["b.txt"]] ++
        (((getPaths (.cons "b.txt" (.file "B") (.cons "c.txt" (.file "C") .nil))
            ["r"]).map Prod.fst).filter
          (fun k => k ∉ [[("a.txt" : String)], ["b.txt"]]))) ∧
    (pLookup [("b.txt" : String)] (Handle.addFixtures (fun _ => ["gen"])
        ⟨["r"], [],
          [(["a.txt"], ["r", "a.txt"]), (["b.txt"], ["r", "b.txt"])]⟩
        (.cons "b.txt" (.file "B") (.cons "c.txt" (.file "C") .nil))
        ⟨[], 0, []⟩).1.paths =
      firstSome (pLookup [("b.txt" : String)]
          (getPaths (.cons "b.txt" (.file "B") (.cons "c.txt" (.file "C") .nil))
            ["r"]))
        (pLookup [("b.txt" : String)]
          [(["a.txt"], ["r", "a.txt"]), (["b.txt"], ["r", "b.txt"])])) := by
  have := c3_addFixtures_path_table (fun _ => ["gen"]) ["r"] []
    [(["a.txt"], ["r", "a.txt"]), (["b.txt"], ["r", "b.txt"])]
    (.cons "b.txt" (.file "B") (.cons "c.txt" (.file "C") .nil))
    ⟨[], 0, []⟩ (by decide) (by decide)
  exact ⟨this.1, this.2.1, this.2.2 [("b.txt" : String)]⟩


theorem splitAux_ne_nil : ∀ (cs cur : List Char), splitAux cs cur ≠ [] := by
  intro cs
  induction cs with
  | nil => intro cur; simp [splitAux]
  | cons c rest ih =>
      intro cur
      simp only [splitAux]
      by_cases h : c = '/'
      · rw [if_pos h]; simp
      · rw [if_neg h]; exact ih _

theorem splitKey_ne_nil (k : String) : splitKey k ≠ [] := by
  simp only [splitKey, ne_eq, List.map_eq_nil_iff]
  exact splitAux_ne_nil _ _

theorem prefix_snoc_cases {p l : FPath} {a : String}
    (h : p <+: l ++ [a]) (hne : p ≠ l ++ [a]) : p <+: l := by
  have hlen : p.length ≤ l.length + 1 := by
    have := h.length_le
    simpa using this
  have hle : p.length ≤ l.length := by
    rcases Nat.eq_or_lt_of_le hlen with he | hl
    · exact absurd (h.eq_of_length (by simpa using he)) hne
    · omega
  exact List.prefix_of_prefix_length_le h (List.prefix_append l [a]) hle

theorem ascPrefixes_mem_of :
    ∀ (s : List String) (acc t : FPath), t ≠ [] → t <+: s →
      acc ++ t ∈ ascPrefixes acc s := by
  intro s
  induction s with
  | nil =>
      intro acc t ht hpre
      exact absurd (List.prefix_nil.mp hpre) ht
  | cons seg s' ih =>
      intro acc t ht hpre
      cases t with
      | nil => exact absurd rfl ht
      | cons a t' =>
          obtain ⟨rfl, ht'⟩ := List.cons_prefix_cons.mp hpre
          rw [show acc ++ a :: t' = (acc ++ [a]) ++ t' by simp]
          cases t' with
          | nil => simp [ascPrefixes]
          | cons b t2 =>
              exact List.mem_cons_of_mem _ (ih (acc ++ [a]) (b :: t2) (by simp) ht')

theorem AncCov_congr :
    ∀ (L : List FPath) (s1 s2 : List FPath), (∀ x, x ∈ s1 ↔ x ∈ s2) →
      AncCov s1 L → AncCov s2 L := by
  intro L
  induction L with
  | nil => intro s1 s2 _ _; trivial
  | cons q rest ih =>
      intro s1 s2 hiff h
      refine ⟨fun p h1 h2 h3 => (hiff p).mp (h.1 p h1 h2 h3), ?_⟩
      refine ih (q :: s1) (q :: s2) (fun x => ?_) h.2
      simp only [List.mem_cons]
      exact or_congr Iff.rfl (hiff x)

theorem AncCov_append :
    ∀ (A : List FPath) (B : List FPath) (s : List FPath),
      AncCov s A → AncCov (A.reverse ++ s) B → AncCov s (A ++ B) := by
  intro A
  induction A with
  | nil =>
      intro B s _ h2
      simpa using h2
  | cons a A2 ih =>
      intro B s h1 h2
      refine ⟨h1.1, ?_⟩
      refine ih B (a :: s) h1.2 (AncCov_congr B _ _ (fun x => ?_) h2)
      simp only [List.reverse_cons, List.append_assoc, List.mem_append,
        List.mem_cons, List.mem_singleton]
      tauto

theorem AncCov_elim :
    ∀ (L : List FPath) (seen : List FPath), AncCov seen L →
      ∀ q ∈ L, ∀ p, p ≠ [] → p <+: q → p ≠ q → p ∈ seen ∨ p ∈ L := by
  intro L
  induction L with
  | nil => intro seen _ q hq; simp at hq
  | cons q0 rest ih =>
      intro seen h q hq p h1 h2 h3
      rcases List.mem_cons.mp hq with hc | hc
      · subst hc
        exact Or.inl (h.1 p h1 h2 h3)
      · rcases ih (q0 :: seen) h.2 q hc p h1 h2 h3 with hr | hr
        · rcases List.mem_cons.mp hr with hr | hr
          · exact Or.inr (List.mem_cons.mpr (Or.inl hr))
          · exact Or.inl hr
        · exact Or.inr (List.mem_cons_of_mem _ hr)

theorem AncCov_ascPrefixes :
    ∀ (s : List String) (rel : FPath) (seen : List FPath),
      (∀ x, x ≠ [] → x <+: rel → x ∈ seen) →
      AncCov seen (ascPrefixes rel s) := by
  intro s
  induction s with
  | nil => intro rel seen _; trivial
  | cons seg s' ih =>
      intro rel seen hseen
      refine ⟨fun p h1 h2 h3 => hseen p h1 (prefix_snoc_cases h2 h3), ?_⟩
      refine ih (rel ++ [seg]) _ (fun x hx1 hx2 => ?_)
      rcases eq_or_ne x (rel ++ [seg]) with h | h
      · exact List.mem_cons.mpr (Or.inl h)
      · exact List.mem_cons_of_mem _ (hseen x hx1 (prefix_snoc_cases hx2 h))

mutual
theorem rawPathsD_strict (d : Directory) (rel : FPath) :
    ∀ p ∈ rawPathsD d rel, rel <+: p ∧ rel.length < p.length := by
  cases d with
  | nil => intro p hp; simp [rawPathsD] at hp
  | cons k it rest =>
      intro p hp
      simp only [rawPathsD, List.mem_append] at hp
      rcases hp with (hp | hp) | hp
      · obtain ⟨h1, _, h3⟩ := ascPrefixes_mem (splitKey k) rel p hp
        exact ⟨h1, h3⟩
      · obtain ⟨h1, h2⟩ := rawPathsItem_strict it (rel ++ splitKey k) p hp
        refine ⟨(List.prefix_append rel _).trans h1, ?_⟩
        have : (rel ++ splitKey k).length = rel.length + (splitKey k).length := by
          simp
        omega
      · exact rawPathsD_strict rest rel p hp

theorem rawPathsItem_strict (it : DirectoryItem) (rel : FPath) :
    ∀ p ∈ rawPathsItem it rel, rel <+: p ∧ rel.length < p.length := by
  cases it with
  | file c => intro p hp; simp [rawPathsItem] at hp
  | dir d => exact rawPathsD_strict d rel
end

mutual
theorem rawPathsD_cov (d : Directory) (rel : FPath) (seen : List FPath)
    (hseen : ∀ x, x ≠ [] → x <+: rel → x ∈ seen) :
    AncCov seen (rawPathsD d rel) := by
  cases d with
  | nil => trivial
  | cons k it rest =>
      show AncCov seen
        ((keyPrefixes rel (splitKey k) ++ rawPathsItem it (rel ++ splitKey k))
          ++ rawPathsD rest rel)
      refine AncCov_append _ _ _ ?_ ?_
      · refine AncCov_append _ _ _ (AncCov_ascPrefixes _ _ _ hseen) ?_
        refine rawPathsItem_cov it (rel ++ splitKey k) _ ?_
        intro x hx1 hx2
        rcases Nat.lt_or_ge rel.length x.length with hlt | hge
        · have hrx : rel <+: x :=
            List.prefix_of_prefix_length_le (List.prefix_append rel _) hx2
              (Nat.le_of_lt hlt)
          obtain ⟨t, rfl⟩ := hrx
          have ht1 : t ≠ [] := by
            intro hh
            subst hh
            simp at hlt
          have ht2 : t <+: splitKey k := (List.prefix_append_right_inj rel).mp hx2
          exact List.mem_append_left _
            (List.mem_reverse.mpr (ascPrefixes_mem_of (splitKey k) rel t ht1 ht2))
        · exact List.mem_append_right _
            (hseen x hx1
              (List.prefix_of_prefix_length_le hx2 (List.prefix_append rel _) hge))
      · refine rawPathsD_cov rest rel _ ?_
        intro x hx1 hx2
        exact List.mem_append_right _ (hseen x hx1 hx2)

theorem rawPathsItem_cov (it : DirectoryItem) (rel : FPath)
    (seen : List FPath)
    (hseen : ∀ x, x ≠ [] → x <+: rel → x ∈ seen) :
    AncCov seen (rawPathsItem it rel) := by
  cases it with
  | file c => trivial
  | dir d => exact rawPathsD_cov d rel seen hseen
end

theorem newKeys_mem {K : Type} [DecidableEq K] :
    ∀ (bs seen : List K) (x : K),
      x ∈ newKeys bs seen ↔ x ∈ bs ∧ x ∉ seen := by
  intro bs
  induction bs with
  | nil => intro seen x; simp [newKeys]
  | cons k rest ih =>
      intro seen x
      simp only [newKeys]
      by_cases hk : k ∈ seen
      · rw [if_pos hk, ih]
        constructor
        · rintro ⟨h1, h2⟩
          exact ⟨List.mem_cons_of_mem _ h1, h2⟩
        · rintro ⟨h1, h2⟩
          rcases List.mem_cons.mp h1 with h | h
          · exact absurd (h ▸ hk) h2
          · exact ⟨h, h2⟩
      · rw [if_neg hk]
        simp only [List.mem_cons, ih, List.mem_append, List.mem_singleton]
        constructor
        · rintro (h | ⟨h1, h2⟩)
          · subst h
            exact ⟨Or.inl rfl, hk⟩
          · exact ⟨Or.inr h1, fun hc => h2 (Or.inl hc)⟩
        · rintro ⟨h1, h2⟩
          rcases h1 with h | h
          · exact Or.inl h
          · by_cases hxk : x = k
            · exact Or.inl hxk
            · exact Or.inr ⟨h, by
                rintro (hc | hc | hc)
                · exact h2 hc
                · exact hxk hc
                · simp at hc⟩

theorem newKeys_pairwise :
    ∀ (bs seen : List FPath), (∀ x ∈ bs, x ≠ ([] : FPath)) →
      AncCov seen bs →
      List.Pairwise (fun p q => ¬ (q <+: p ∧ q ≠ p)) (newKeys bs seen) := by
  intro bs
  induction bs with
  | nil => intro seen _ _; exact List.Pairwise.nil
  | cons k rest ih =>
      intro seen hne hcov
      have hne' : ∀ x ∈ rest, x ≠ ([] : FPath) :=
        fun x hx => hne x (List.mem_cons_of_mem _ hx)
      simp only [newKeys]
      by_cases hk : k ∈ seen
      · rw [if_pos hk]
        refine ih seen hne' (AncCov_congr rest (k :: seen) seen (fun x => ?_) hcov.2)
        simp only [List.mem_cons]
        constructor
        · rintro (h | h)
          · exact h ▸ hk
          · exact h
        · exact Or.inr
      · rw [if_neg hk]
        refine List.Pairwise.cons ?_ ?_
        · intro b hb
          obtain ⟨hb1, hb2⟩ := (newKeys_mem rest (seen ++ [k]) b).mp hb
          rintro ⟨hp1, hp2⟩
          have hbne : b ≠ [] := hne' b hb1
          have : b ∈ seen := hcov.1 b hbne hp1 hp2
          exact hb2 (List.mem_append_left _ this)
        · refine ih (seen ++ [k]) hne'
            (AncCov_congr rest (k :: seen) (seen ++ [k]) (fun x => ?_) hcov.2)
          simp only [List.mem_cons, List.mem_append, List.mem_singleton]
          tauto

theorem getPaths_keys (d : Directory) (root : FPath) :
    (getPaths d root).map Prod.fst = newKeys (rawPathsD d []) [] := by
  show (objOfList ((rawPathsD d []).map (fun rel => (rel, root ++ rel)))).map
      Prod.fst = _
  have hfold := foldl_objInsert_keys
    ((rawPathsD d []).map (fun rel => (rel, root ++ rel))) ([] : PathTable)
  rw [show (((rawPathsD d []).map (fun rel => (rel, root ++ rel))).foldl
      (fun m q => objInsert q.1 q.2 m) ([] : PathTable))
      = objOfList ((rawPathsD d []).map (fun rel => (rel, root ++ rel)))
      from rfl] at hfold
  rw [hfold]
  have hkeys : ((rawPathsD d []).map (fun rel => (rel, root ++ rel))).map
      Prod.fst = rawPathsD d [] := by
    rw [List.map_map]
    exact List.map_id' _
  rw [hkeys]
  rfl

mutual
theorem leafPathsD_sub (d : Directory) (rel : FPath) :
    ∀ p ∈ leafPathsD d rel, p ∈ rawPathsD d rel := by
  cases d with
  | nil => intro p hp; simp [leafPathsD] at hp
  | cons k it rest =>
      intro p hp
      simp only [leafPathsD, List.mem_append] at hp
      show p ∈ (keyPrefixes rel (splitKey k) ++
        rawPathsItem it (rel ++ splitKey k)) ++ rawPathsD rest rel
      rcases hp with hp | hp
      · cases it with
        | file c =>
            simp only [leafPathsItem, List.mem_singleton] at hp
            subst hp
            refine List.mem_append_left _ (List.mem_append_left _ ?_)
            exact ascPrefixes_mem_of (splitKey k) rel (splitKey k)
              (splitKey_ne_nil k) List.prefix_rfl
        | dir d2 =>
            exact List.mem_append_left _ (List.mem_append_right _
              (leafPathsD_sub d2 (rel ++ splitKey k) p hp))
      · exact List.mem_append_right _ (leafPathsD_sub rest rel p hp)
end

/-- C7: the flat path table of a specification has exactly one entry per
key; it contains an entry for every file leaf's resolved path and, being
closed under nonempty proper prefixes, one for every intermediate directory
implied by multi-segment keys or nested nodes; no entry is followed by one
of its proper ancestors, so every parent entry precedes its descendants in
the table's declared-order traversal; and flattening `{c/a/a.txt: x}` yields
exactly the keys `c`, `c/a`, `c/a/a.txt` in that order. -/
theorem c7_getPaths_flattening (d : Directory) (root : FPath) :
    ((getPaths d root).map Prod.fst).Nodup ∧
    (∀ p ∈ leafPathsD d [], p ∈ (getPaths d root).map Prod.fst) ∧
    (∀ q ∈ (getPaths d root).map Prod.fst, ∀ p, p ≠ [] → p <+: q → p ≠ q →
      p ∈ (getPaths d root).map Prod.fst) ∧
    List.Pairwise (fun p q => ¬ (q <+: p ∧ q ≠ p))
      ((getPaths d root).map Prod.fst) ∧
    getPaths (.cons "c/a/a.txt" (.file "x") .nil) ["R"] =
      [(["c"], ["R", "c"]), (["c", "a"], ["R", "c", "a"]),
       (["c", "a", "a.txt"], ["R", "c", "a", "a.txt"])] := by
  have hvac : ∀ x : FPath, x ≠ [] → x <+: ([] : FPath) →
      x ∈ ([] : List FPath) := by
    intro x hx hpre
    exact absurd (List.prefix_nil.mp hpre) hx
  have hcov := rawPathsD_cov d [] [] hvac
  have hne : ∀ x ∈ rawPathsD d [], x ≠ ([] : FPath) := by
    intro x hx hh
    have hlen := (rawPathsD_strict d [] x hx).2
    subst hh
    simp at hlen
  refine ⟨objOfList_keys_nodup _, ?_, ?_, ?_, by decide⟩
  · intro p hp
    rw [getPaths_keys, newKeys_mem]
    exact ⟨leafPathsD_sub d [] p hp, by simp⟩
  · intro q hq p h1 h2 h3
    rw [getPaths_keys, newKeys_mem] at hq ⊢
    rcases AncCov_elim _ _ hcov q hq.1 p h1 h2 h3 with hc | hc
    · simp at hc
    · exact ⟨hc, by simp⟩
  · rw [getPaths_keys]
    exact newKeys_pairwise _ _ hne hcov

/-- Witness for C7 at the example specification `{c/a/a.txt: x}`: the leaf
path is in the table and its intermediate directory `c` is in the table. -/
theorem c7_witness :
    ((getPaths (.cons "c/a/a.txt" (.file "x") .nil) ["R"]).map Prod.fst).Nodup ∧
    (["c", "a", "a.txt"] : FPath) ∈
      (getPaths (.cons "c/a/a.txt" (.file "x") .nil) ["R"]).map Prod.fst ∧
    (["c"] : FPath) ∈
      (getPaths (.cons "c/a/a.txt" (.file "x") .nil) ["R"]).map Prod.fst := by
  have h := c7_getPaths_flattening (.cons "c/a/a.txt" (.file "x") .nil) ["R"]
  refine ⟨h.1, h.2.1 ["c", "a", "a.txt"] (by decide), ?_⟩
  exact h.2.2.1 ["c", "a", "a.txt"] (by decide) ["c"] (by decide) (by decide)
    (by decide)
